import Mathlib

/-!
Verification of the disjoint-set forest and zero-sum verifier of
src/test-assets/moneymatters.cpp.

The C++ program allocates `n` nodes, each holding a `parent` pointer
(initially the node itself), a `rank` and a `money` value.  We embed the
heap of nodes as a structure with index-valued fields: `Node*` pointers
become indices into `[0, n)` and pointer equality becomes index equality
(every node is allocated separately, so distinct indices are distinct
pointers).  The recursive `find` with full path compression is embedded
with explicit fuel; under the forest invariant a fuel of `n` is enough,
so the fueled function agrees with the C++ recursion wherever the latter
terminates.
-/

/-- The heap of `n` disjoint-set nodes.  `parent`, `rank` and `money`
give the fields of node `i` (meaningful for `i < n`). -/
structure Forest where
  n : Nat
  parent : Nat → Nat
  rank : Nat → Nat
  money : Nat → Int

/-- `x->parent == x`: node `i` is a representative. -/
def isRoot (f : Forest) (i : Nat) : Prop := f.parent i = i

instance (f : Forest) (i : Nat) : Decidable (isRoot f i) := by
  unfold isRoot; infer_instance

/-- The representative reached from `i` by iterating parent links `n`
times; under the forest invariant the walk stabilises within `n` steps,
so this is the root of the tree containing `i`. -/
def rootOf (f : Forest) (i : Nat) : Nat := (f.parent)^[f.n] i

/-- The forest invariant: parent links stay in range, and from every
node some number of parent steps reaches a self-loop. -/
def WF (f : Forest) : Prop :=
  (∀ i, i < f.n → f.parent i < f.n) ∧
  (∀ i, i < f.n → ∃ k, isRoot f ((f.parent)^[k] i))

/-- A decidable strengthening of `WF`: stabilisation within `n` steps. -/
def WFb (f : Forest) : Prop :=
  (∀ i, i < f.n → f.parent i < f.n) ∧
  (∀ i, i < f.n → isRoot f ((f.parent)^[f.n] i))

instance (f : Forest) : Decidable (WFb f) := by
  unfold WFb; infer_instance

/-- Overwrite the parent field of node `i` (the store `x->parent = r`). -/
def setParent (f : Forest) (i r : Nat) : Forest :=
  { f with parent := fun j => if j = i then r else f.parent j }

/-- `Node* find(Node* x)`: recursively locate the root, then rewrite the
parent of every node on the path to point at it, returning the updated
heap together with the root.  `fuel` bounds the recursion depth. -/
def findAux : Nat → Forest → Nat → Forest × Nat
  | 0, f, i => (f, i)
  | fuel + 1, f, i =>
    if f.parent i = i then (f, i)
    else
      let res := findAux fuel f (f.parent i)
      (setParent res.1 i res.2, res.2)

/-- `find` run with fuel `n`, enough for any well-formed forest. -/
def find (f : Forest) (i : Nat) : Forest × Nat := findAux f.n f i

/-- The list of nodes visited by `find f i`: the path from `i` to its
root (inclusive), cut off by fuel. -/
def pathAux : Nat → Forest → Nat → List Nat
  | 0, _, i => [i]
  | fuel + 1, f, i =>
    if f.parent i = i then [i]
    else i :: pathAux fuel f (f.parent i)

/-- The nodes visited by `find f i`. -/
def pathOf (f : Forest) (i : Nat) : List Nat := pathAux f.n f i

/-- The merge proper (`rootB->parent = rootA` and the tie-rank bump),
with `w` the root kept on top and `l` the root attached below it. -/
def mergeRanked (f1 : Forest) (w l : Nat) : Forest :=
  let f2 := setParent f1 l w
  if f1.rank w = f1.rank l then
    { f2 with rank := fun j => if j = w then f2.rank j + 1 else f2.rank j }
  else f2

/-- The tail of `nodeUnion` after the two `find` calls (lines 25-35 of
the C++): return if the roots coincide, otherwise the post-swap `rootA`
(the higher-ranked root, `rootA` itself on a tie) survives and the
other root is attached below it. -/
def mergeRoots (f1 : Forest) (rootA rootB : Nat) : Forest :=
  if rootA = rootB then f1
  else
    mergeRanked f1 (if f1.rank rootA < f1.rank rootB then rootB else rootA)
      (if f1.rank rootA < f1.rank rootB then rootA else rootB)

/-- `void nodeUnion(Node* a, Node* b)`: find both roots (each `find`
compresses paths, the second running on the heap left by the first),
then merge as in `mergeRoots`. -/
def nodeUnion (f : Forest) (a b : Nat) : Forest :=
  let resA := find f a
  let resB := find resA.1 b
  mergeRoots resB.1 resA.2 resB.2

/-- `bool query(Node* a, Node* b)`: `find(a) == find(b)`, returning the
heap after both compressions. -/
def query (f : Forest) (a b : Nat) : Forest × Bool :=
  let resA := find f a
  let resB := find resA.1 b
  (resB.1, decide (resA.2 = resB.2))

/-- The heap `main` builds before reading unions: `n` fresh nodes, each
its own parent, rank `0`, with the given money values. -/
def make (n : Nat) (money : Nat → Int) : Forest :=
  { n := n, parent := fun i => i, rank := fun _ => 0, money := money }

/-- Running a sequence of `find` calls, threading the heap through. -/
def applyFinds (f : Forest) (js : List Nat) : Forest :=
  js.foldl (fun g k => (find g k).1) f

/-- The root that stays on top in a merging `nodeUnion f a b`: the
higher-ranked of the two roots, the root of `a` on a tie. -/
def unionWinner (f : Forest) (a b : Nat) : Nat :=
  if f.rank (rootOf f a) < f.rank (rootOf f b) then rootOf f b else rootOf f a

/-- The root that is attached below the winner in a merging
`nodeUnion f a b`. -/
def unionLoser (f : Forest) (a b : Nat) : Nat :=
  if f.rank (rootOf f a) < f.rank (rootOf f b) then rootOf f a else rootOf f b

/-- An operation of the forest's public surface. -/
inductive Op
  | findOp (i : Nat)
  | unionOp (a b : Nat)

/-- Run one operation, keeping the resulting heap. -/
def applyOp (f : Forest) : Op → Forest
  | Op.findOp i => (find f i).1
  | Op.unionOp a b => nodeUnion f a b

/-- Run a sequence of operations. -/
def applyOps (f : Forest) (ops : List Op) : Forest := ops.foldl applyOp f

/-- The indices mentioned by one operation are in range. -/
def opValid (n : Nat) : Op → Prop
  | Op.findOp i => i < n
  | Op.unionOp a b => a < n ∧ b < n

/-- All indices mentioned by the operations are in range. -/
instance (n : Nat) (op : Op) : Decidable (opValid n op) := by
  cases op with
  | findOp i => exact inferInstanceAs (Decidable (i < n))
  | unionOp a b => exact inferInstanceAs (Decidable (a < n ∧ b < n))

def OpsValid (n : Nat) (ops : List Op) : Prop :=
  ∀ op ∈ ops, opValid n op

instance (n : Nat) (ops : List Op) : Decidable (OpsValid n ops) := by
  unfold OpsValid
  infer_instance

/-- The program's verdict. -/
inductive Verdict
  | POSSIBLE
  | IMPOSSIBLE
deriving DecidableEq

/-- Two's-complement wrap of a 32-bit signed `int`, the C++ type of
`money` and of the `unordered_map<Node*, int>` totals. -/
def wrap32 (z : Int) : Int := (z + 2 ^ 31) % 2 ^ 32 - 2 ^ 31

/-- The state of `main`'s aggregation loop: the heap (mutated by the
compressing `find` calls), the running per-representative totals, and
the set of map keys in insertion order (`unordered_map<Node*, int>`
keyed by root, with absent keys read as the freshly inserted `0`). -/
structure VState where
  forest : Forest
  sums : Nat → Int
  keys : List Nat

/-- One iteration of `main`'s aggregation loop at entity `i`:
`parent = find(nodes[i]); sums[parent] += nodes[i]->money`, the
addition performed on the map's 32-bit `int` value (wrapping). -/
def addEntity (st : VState) (i : Nat) : VState :=
  let res := find st.forest i
  { forest := res.1,
    sums := fun j => if j = res.2 then wrap32 (st.sums res.2 + res.1.money i)
      else st.sums j,
    keys := if res.2 ∈ st.keys then st.keys else st.keys ++ [res.2] }

/-- The aggregation loop over a given scan order. -/
def scanState (f : Forest) (order : List Nat) : VState :=
  order.foldl addEntity { forest := f, sums := fun _ => 0, keys := [] }

/-- The verdict computed from scanning entities in the given order and
then checking every accumulated (wrapping `int`) total for zero (the
map iteration order is irrelevant to the all-zero check). -/
def verifyScan (f : Forest) (order : List Nat) : Verdict :=
  if (scanState f order).keys.all (fun r => (scanState f order).sums r == 0)
  then Verdict.POSSIBLE else Verdict.IMPOSSIBLE

/-- `main`'s verdict: scan entities in index order, totals in wrapping
32-bit `int` as in the source. -/
def verify (f : Forest) : Verdict := verifyScan f (List.range f.n)

/-- Sum of the values of the scanned entities whose representative is
`r`. -/
def scanSum (f : Forest) (order : List Nat) (r : Nat) : Int :=
  ((order.filter (fun i => decide (rootOf f i = r))).map f.money).sum

/-- Sum of the values of the group with representative `r`. -/
def groupSum (f : Forest) (r : Nat) : Int := scanSum f (List.range f.n) r

/-- The verdict the spec describes, with group totals taken in exact
(unbounded) integer arithmetic — the spec's requirement of an integer
width that cannot overflow, realized: `POSSIBLE` iff every group's
exact sum is zero.  Kept as a second, clearly idealized definition to
compare with the program's wrapping `verify`. -/
def verifyExact (f : Forest) : Verdict :=
  if ∀ i, i < f.n → groupSum f (rootOf f i) = 0
  then Verdict.POSSIBLE else Verdict.IMPOSSIBLE

/-- Apply a list of union requests in order. -/
def applyUnions (f : Forest) (us : List (Nat × Nat)) : Forest :=
  us.foldl (fun g u => nodeUnion g u.1 u.2) f

/-- All union requests mention in-range entities. -/
def UnionsValid (n : Nat) (us : List (Nat × Nat)) : Prop :=
  ∀ u ∈ us, u.1 < n ∧ u.2 < n

instance (n : Nat) (us : List (Nat × Nat)) : Decidable (UnionsValid n us) := by
  unfold UnionsValid
  infer_instance

/-- Modelled from the spec: the reimplementation surface with validated
indices is not part of the source under test (the C++ test asset indexes
`nodes[a]` unchecked); the spec prescribes an `IndexOutOfRange` failure
that leaves the forest unmodified, with all indices validated before any
mutation. -/
inductive DsError
  | InvalidSize
  | IndexOutOfRange
deriving DecidableEq

/-- Modelled from the spec: `find` with its index precondition checked
before any mutation. -/
def findChecked (f : Forest) (i : Nat) : Forest × Except DsError Nat :=
  if i < f.n then ((find f i).1, Except.ok (find f i).2)
  else (f, Except.error DsError.IndexOutOfRange)

/-- Modelled from the spec: `union` validating both indices before any
mutation (so no compression happens when the second index is bad). -/
def unionChecked (f : Forest) (a b : Nat) : Forest × Except DsError Unit :=
  if a < f.n ∧ b < f.n then (nodeUnion f a b, Except.ok ())
  else (f, Except.error DsError.IndexOutOfRange)

/-- Modelled from the spec: `same_group` validating both indices before
any mutation. -/
def sameGroupChecked (f : Forest) (a b : Nat) : Forest × Except DsError Bool :=
  if a < f.n ∧ b < f.n then ((query f a b).1, Except.ok (query f a b).2)
  else (f, Except.error DsError.IndexOutOfRange)

/-- A concrete well-formed forest, a three-node chain 0 → 1 → 2 with
root 2: entities 0 and 1 already share their representative, yet a
`nodeUnion 0 1` still rewrites parent links (path compression). -/
def chain3 : Forest :=
  { n := 3, parent := fun j => if j = 0 then 1 else 2,
    rank := fun _ => 0, money := fun _ => 0 }

/-- A concrete well-formed forest: chain 0 → 1 → 2 (root 2, rank 2)
plus the singleton root 3 (rank 0).  Merging the groups of 0 and 3
compresses 0's parent even though 0 is not the losing root. -/
def chain3plus1 : Forest :=
  { n := 4, parent := fun j => if j = 0 then 1 else if j = 1 then 2 else j,
    rank := fun j => if j = 2 then 2 else 0, money := fun _ => 0 }

theorem WF_of_WFb (f : Forest) (h : WFb f) : WF f :=
  ⟨h.1, fun i hi => ⟨f.n, h.2 i hi⟩⟩

section IterLemmas

variable (f : Forest)

theorem iter_in_range (hcl : ∀ i, i < f.n → f.parent i < f.n) :
    ∀ k i, i < f.n → (f.parent)^[k] i < f.n := by
  intro k
  induction k with
  | zero => intro i hi; simpa using hi
  | succ k ih =>
    intro i hi
    rw [Function.iterate_succ_apply]
    exact ih _ (hcl i hi)

theorem iter_root_fixed {r : Nat} (hr : isRoot f r) (k : Nat) :
    (f.parent)^[k] r = r :=
  Function.iterate_fixed hr k

/-- Any two parent-iterates of `i` that are roots coincide. -/
theorem root_iter_unique {i a b : Nat} (ha : isRoot f ((f.parent)^[a] i))
    (hb : isRoot f ((f.parent)^[b] i)) :
    (f.parent)^[a] i = (f.parent)^[b] i := by
  rcases Nat.le_total a b with h | h
  · have : (f.parent)^[b] i = (f.parent)^[b - a] ((f.parent)^[a] i) := by
      rw [← Function.iterate_add_apply]
      congr 1
      omega
    rw [this, iter_root_fixed f ha]
  · have : (f.parent)^[a] i = (f.parent)^[a - b] ((f.parent)^[b] i) := by
      rw [← Function.iterate_add_apply]
      congr 1
      omega
    rw [this, iter_root_fixed f hb]

end IterLemmas

/-- Under the invariant, the parent walk from `i` first reaches a root
within `f.n - 1` steps and is constant from then on (pigeonhole on the
distinct nodes of the path). -/
theorem stab_bound (f : Forest) (hwf : WF f) {i : Nat} (hi : i < f.n) :
    ∃ m, m < f.n ∧ isRoot f ((f.parent)^[m] i) ∧
      ∀ t, m ≤ t → (f.parent)^[t] i = (f.parent)^[m] i := by
  have hex : ∃ k, isRoot f ((f.parent)^[k] i) := hwf.2 i hi
  refine ⟨Nat.find hex, ?_, Nat.find_spec hex, ?_⟩
  · have hm : isRoot f ((f.parent)^[Nat.find hex] i) := Nat.find_spec hex
    have hmin : ∀ s, s < Nat.find hex → ¬ isRoot f ((f.parent)^[s] i) :=
      fun s hs => Nat.find_min hex hs
    have hinj : ∀ a b : Nat, a < b → b ≤ Nat.find hex →
        (f.parent)^[a] i ≠ (f.parent)^[b] i := by
      intro a b hab hbm heq
      have hsh : (f.parent)^[(Nat.find hex - b) + a] i = (f.parent)^[Nat.find hex] i := by
        rw [Function.iterate_add_apply, heq, ← Function.iterate_add_apply]
        congr 1
        omega
      exact hmin ((Nat.find hex - b) + a) (by omega) (by rw [hsh]; exact hm)
    have hcard : Nat.find hex + 1 ≤ f.n := by
      have hginj : Function.Injective
          (fun a : Fin (Nat.find hex + 1) =>
            (⟨(f.parent)^[a.1] i, iter_in_range f hwf.1 a.1 i hi⟩ : Fin f.n)) := by
        intro a b hab
        have hv : (f.parent)^[a.1] i = (f.parent)^[b.1] i := congrArg Fin.val hab
        by_contra hne
        have hne2 : a.1 ≠ b.1 := fun h => hne (Fin.ext h)
        rcases Nat.lt_or_ge a.1 b.1 with h | h
        · exact hinj a.1 b.1 h (by omega) hv
        · have h2 : b.1 < a.1 := by omega
          exact hinj b.1 a.1 h2 (by omega) hv.symm
      have := Fintype.card_le_of_injective _ hginj
      simpa using this
    omega
  · intro t ht
    have : (f.parent)^[t] i = (f.parent)^[t - Nat.find hex] ((f.parent)^[Nat.find hex] i) := by
      rw [← Function.iterate_add_apply]
      congr 1
      omega
    rw [this, iter_root_fixed f (Nat.find_spec hex)]

theorem rootOf_isRoot (f : Forest) (hwf : WF f) {i : Nat} (hi : i < f.n) :
    isRoot f (rootOf f i) := by
  obtain ⟨m, hm, hroot, hstab⟩ := stab_bound f hwf hi
  unfold rootOf
  rw [hstab f.n (by omega)]
  exact hroot

theorem iter_eq_rootOf (f : Forest) (hwf : WF f) {i k : Nat} (hi : i < f.n)
    (hk : isRoot f ((f.parent)^[k] i)) : (f.parent)^[k] i = rootOf f i :=
  root_iter_unique f hk (rootOf_isRoot f hwf hi)

theorem rootOf_lt (f : Forest) (hwf : WF f) {i : Nat} (hi : i < f.n) :
    rootOf f i < f.n :=
  iter_in_range f hwf.1 f.n i hi

theorem rootOf_of_isRoot (f : Forest) {i : Nat} (h : isRoot f i) :
    rootOf f i = i :=
  iter_root_fixed f h f.n

theorem rootOf_iter (f : Forest) (hwf : WF f) {i : Nat} (hi : i < f.n) (t : Nat) :
    rootOf f ((f.parent)^[t] i) = rootOf f i := by
  obtain ⟨m, hm, hroot, hstab⟩ := stab_bound f hwf hi
  have h1 : rootOf f ((f.parent)^[t] i) = (f.parent)^[f.n + t] i := by
    unfold rootOf
    rw [← Function.iterate_add_apply]
  rw [h1, hstab (f.n + t) (by omega)]
  unfold rootOf
  rw [hstab f.n (by omega)]

theorem rootOf_parent (f : Forest) (hwf : WF f) {i : Nat} (hi : i < f.n) :
    rootOf f (f.parent i) = rootOf f i := by
  have := rootOf_iter f hwf hi 1
  simpa using this

/-- Rewriting parent links so that each rewritten node points directly
at its own representative (exactly what path compression does) keeps
the forest well-formed and leaves every representative unchanged. -/
theorem redirect_preserves (f g : Forest) (hwf : WF f) (hn : g.n = f.n)
    (hpar : ∀ j, j < f.n → g.parent j = f.parent j ∨ g.parent j = rootOf f j) :
    WF g ∧ ∀ j, j < f.n → rootOf g j = rootOf f j := by
  have hroot : ∀ r, r < f.n → isRoot f r → isRoot g r := by
    intro r hr hrr
    rcases hpar r hr with h | h
    · unfold isRoot
      rw [h]
      exact hrr
    · unfold isRoot
      rw [h]
      exact rootOf_of_isRoot f hrr
  have haux : ∀ m j, j < f.n → isRoot f ((f.parent)^[m] j) →
      ∃ k, k ≤ m ∧ (g.parent)^[k] j = rootOf f j := by
    intro m
    induction m with
    | zero =>
      intro j hj hr
      refine ⟨0, Nat.le_refl 0, ?_⟩
      simpa using (rootOf_of_isRoot f hr).symm
    | succ m ih =>
      intro j hj hr
      by_cases hjr : isRoot f j
      · refine ⟨0, by omega, ?_⟩
        simpa using (rootOf_of_isRoot f hjr).symm
      · rcases hpar j hj with h | h
        · have hpj : f.parent j < f.n := hwf.1 j hj
          have hr2 : isRoot f ((f.parent)^[m] (f.parent j)) := by
            rw [← Function.iterate_succ_apply]
            exact hr
          obtain ⟨k, hk, hgk⟩ := ih (f.parent j) hpj hr2
          refine ⟨k + 1, by omega, ?_⟩
          rw [Function.iterate_succ_apply, h, hgk, rootOf_parent f hwf hj]
        · refine ⟨1, by omega, ?_⟩
          simpa using h
  have hreach : ∀ j, j < f.n → (g.parent)^[g.n] j = rootOf f j := by
    intro j hj
    obtain ⟨m, hm, hr, _⟩ := stab_bound f hwf hj
    obtain ⟨k, hk, hgk⟩ := haux m j hj hr
    have hgr : isRoot g (rootOf f j) :=
      hroot _ (rootOf_lt f hwf hj) (rootOf_isRoot f hwf hj)
    have hsplit : (g.parent)^[g.n] j = (g.parent)^[g.n - k] ((g.parent)^[k] j) := by
      rw [← Function.iterate_add_apply]
      congr 1
      omega
    rw [hsplit, hgk, iter_root_fixed g hgr]
  refine ⟨⟨?_, ?_⟩, ?_⟩
  · intro j hj
    rw [hn] at hj ⊢
    rcases hpar j hj with h | h
    · rw [h]
      exact hwf.1 j hj
    · rw [h]
      exact rootOf_lt f hwf hj
  · intro j hj
    rw [hn] at hj
    refine ⟨g.n, ?_⟩
    rw [hreach j hj]
    exact hroot _ (rootOf_lt f hwf hj) (rootOf_isRoot f hwf hj)
  · intro j hj
    unfold rootOf
    exact hreach j hj

theorem pathAux_mem (fuel : Nat) :
    ∀ (f : Forest) (i j : Nat), j ∈ pathAux fuel f i →
      ∃ t, t ≤ fuel ∧ (f.parent)^[t] i = j := by
  induction fuel with
  | zero =>
    intro f i j hj
    simp only [pathAux, List.mem_singleton] at hj
    exact ⟨0, Nat.le_refl 0, by simpa using hj.symm⟩
  | succ fuel ih =>
    intro f i j hj
    unfold pathAux at hj
    by_cases hri : f.parent i = i
    · rw [if_pos hri] at hj
      simp only [List.mem_singleton] at hj
      exact ⟨0, by omega, by simpa using hj.symm⟩
    · rw [if_neg hri] at hj
      rcases List.mem_cons.mp hj with h | h
      · exact ⟨0, by omega, by simpa using h.symm⟩
      · obtain ⟨t, ht, hit⟩ := ih f (f.parent i) j h
        refine ⟨t + 1, by omega, ?_⟩
        rw [Function.iterate_succ_apply]
        exact hit

theorem self_mem_pathAux (fuel : Nat) (f : Forest) (i : Nat) :
    i ∈ pathAux fuel f i := by
  cases fuel with
  | zero => simp [pathAux]
  | succ fuel =>
    unfold pathAux
    by_cases hri : f.parent i = i
    · rw [if_pos hri]
      simp
    · rw [if_neg hri]
      simp

theorem findAux_succ_step (fuel : Nat) (f : Forest) (i : Nat)
    (h : ¬ f.parent i = i) :
    findAux (fuel + 1) f i =
      (setParent (findAux fuel f (f.parent i)).1 i (findAux fuel f (f.parent i)).2,
       (findAux fuel f (f.parent i)).2) := by
  simp [findAux, h]

/-- Full characterisation of `findAux`: with enough fuel it returns the
root at the end of `i`'s parent path, leaves `n`, `rank` and `money`
untouched, and rewrites exactly the parents of the visited nodes to
point at that root. -/
theorem findAux_spec (fuel : Nat) :
    ∀ (f : Forest) (i m : Nat), m ≤ fuel → isRoot f ((f.parent)^[m] i) →
      (findAux fuel f i).2 = (f.parent)^[m] i ∧
      (findAux fuel f i).1.n = f.n ∧
      (findAux fuel f i).1.rank = f.rank ∧
      (findAux fuel f i).1.money = f.money ∧
      (∀ j, (findAux fuel f i).1.parent j =
        if j ∈ pathAux fuel f i then (f.parent)^[m] i else f.parent j) := by
  induction fuel with
  | zero =>
    intro f i m hm hr
    have hm0 : m = 0 := Nat.le_zero.mp hm
    subst hm0
    refine ⟨rfl, rfl, rfl, rfl, ?_⟩
    intro j
    by_cases hj : j ∈ pathAux 0 f i
    · rw [if_pos hj]
      simp only [pathAux, List.mem_singleton] at hj
      subst hj
      exact hr
    · rw [if_neg hj]
      rfl
  | succ fuel ih =>
    intro f i m hm hr
    by_cases hri : f.parent i = i
    · have hmi : (f.parent)^[m] i = i := iter_root_fixed f hri m
      have hstep : findAux (fuel + 1) f i = (f, i) := by
        simp [findAux, hri]
      have hpath : pathAux (fuel + 1) f i = [i] := by
        simp [pathAux, hri]
      rw [hstep, hpath]
      refine ⟨hmi.symm, rfl, rfl, rfl, ?_⟩
      intro j
      by_cases hj : j ∈ [i]
      · rw [if_pos hj, hmi]
        simp only [List.mem_singleton] at hj
        subst hj
        exact hri
      · rw [if_neg hj]
    · have hm1 : 1 ≤ m := by
        rcases Nat.eq_zero_or_pos m with h0 | h0
        · subst h0
          simp only [Function.iterate_zero, id] at hr
          exact absurd hr hri
        · exact h0
      obtain ⟨m', rfl⟩ : ∃ m', m = m' + 1 := ⟨m - 1, by omega⟩
      have hr2 : isRoot f ((f.parent)^[m'] (f.parent i)) := by
        rw [← Function.iterate_succ_apply]
        exact hr
      obtain ⟨ih2, ihn, ihrank, ihmoney, ihpar⟩ :=
        ih f (f.parent i) m' (by omega) hr2
      have hiter : (f.parent)^[m'] (f.parent i) = (f.parent)^[m' + 1] i :=
        (Function.iterate_succ_apply _ _ _).symm
      rw [findAux_succ_step fuel f i hri]
      refine ⟨by rw [ih2, hiter], ihn, ihrank, ihmoney, ?_⟩
      intro j
      unfold pathAux
      rw [if_neg hri]
      show (if j = i then (findAux fuel f (f.parent i)).2
            else (findAux fuel f (f.parent i)).1.parent j) = _
      by_cases hj : j = i
      · subst hj
        rw [if_pos rfl, if_pos (List.mem_cons_self j _), ih2, hiter]
      · rw [if_neg hj]
        rw [ihpar j, hiter]
        by_cases hj2 : j ∈ pathAux fuel f (f.parent i)
        · rw [if_pos hj2, if_pos (List.mem_cons_of_mem i hj2)]
        · rw [if_neg hj2, if_neg ?_]
          intro hmem
          rcases List.mem_cons.mp hmem with h | h
          · exact hj h
          · exact hj2 h

/-- `find` on a well-formed forest: returns the representative of `i`,
leaves `n`, `rank` and `money` untouched, rewrites exactly the visited
parents to the representative, preserves well-formedness and every
node's representative. -/
theorem find_spec (f : Forest) (hwf : WF f) {i : Nat} (hi : i < f.n) :
    (find f i).2 = rootOf f i ∧
    (find f i).1.n = f.n ∧
    (find f i).1.rank = f.rank ∧
    (find f i).1.money = f.money ∧
    (∀ j, (find f i).1.parent j =
      if j ∈ pathOf f i then rootOf f i else f.parent j) ∧
    WF (find f i).1 ∧
    (∀ j, j < f.n → rootOf (find f i).1 j = rootOf f j) := by
  obtain ⟨m, hm, hroot, hstab⟩ := stab_bound f hwf hi
  have heq : (f.parent)^[m] i = rootOf f i := iter_eq_rootOf f hwf hi hroot
  obtain ⟨h2, hn, hrank, hmoney, hpar⟩ := findAux_spec f.n f i m (by omega) hroot
  have hpar2 : ∀ j, (find f i).1.parent j =
      if j ∈ pathOf f i then rootOf f i else f.parent j := by
    intro j
    unfold find pathOf
    rw [hpar j, heq]
  have hred : ∀ j, j < f.n →
      (find f i).1.parent j = f.parent j ∨ (find f i).1.parent j = rootOf f j := by
    intro j hj
    rw [hpar2 j]
    by_cases hjp : j ∈ pathOf f i
    · right
      rw [if_pos hjp]
      obtain ⟨t, ht, hit⟩ := pathAux_mem f.n f i j hjp
      rw [← hit, rootOf_iter f hwf hi t]
    · left
      rw [if_neg hjp]
  obtain ⟨hwf2, hroots⟩ := redirect_preserves f (find f i).1 hwf hn hred
  refine ⟨?_, hn, hrank, hmoney, hpar2, hwf2, hroots⟩
  unfold find
  rw [h2, heq]

theorem path_lt (f : Forest) (hwf : WF f) {i j : Nat} (hi : i < f.n)
    (hj : j ∈ pathOf f i) : j < f.n := by
  obtain ⟨t, ht, hit⟩ := pathAux_mem f.n f i j hj
  rw [← hit]
  exact iter_in_range f hwf.1 t i hi

theorem applyFinds_spec (js : List Nat) :
    ∀ (f : Forest), WF f → (∀ j ∈ js, j < f.n) →
      WF (applyFinds f js) ∧ (applyFinds f js).n = f.n ∧
      (applyFinds f js).rank = f.rank ∧ (applyFinds f js).money = f.money ∧
      (∀ j, j < f.n → rootOf (applyFinds f js) j = rootOf f j) := by
  induction js with
  | nil =>
    intro f hwf _
    exact ⟨hwf, rfl, rfl, rfl, fun j _ => rfl⟩
  | cons x js ih =>
    intro f hwf hall
    have hx : x < f.n := hall x (List.mem_cons_self x js)
    obtain ⟨_, hn, hrank, hmoney, _, hwf2, hroots⟩ := find_spec f hwf hx
    have hall2 : ∀ j ∈ js, j < (find f x).1.n := by
      intro j hjj
      rw [hn]
      exact hall j (List.mem_cons_of_mem x hjj)
    obtain ⟨ihwf, ihn, ihrank, ihmoney, ihroots⟩ := ih (find f x).1 hwf2 hall2
    have hfold : applyFinds f (x :: js) = applyFinds (find f x).1 js := rfl
    rw [hfold]
    refine ⟨ihwf, by rw [ihn, hn], by rw [ihrank, hrank], by rw [ihmoney, hmoney], ?_⟩
    intro j hjlt
    rw [ihroots j (by rw [hn]; exact hjlt), hroots j hjlt]

/-- Attaching one root directly below another (the merge step of
`nodeUnion`): the forest stays well-formed and exactly the loser's
class is redirected to the winner. -/
theorem attach_root (f : Forest) (hwf : WF f) {l w : Nat} (hl : l < f.n)
    (hw : w < f.n) (hlr : isRoot f l) (hwr : isRoot f w) (hlw : l ≠ w) :
    WF (setParent f l w) ∧
    ∀ j, j < f.n → rootOf (setParent f l w) j =
      if rootOf f j = l then w else rootOf f j := by
  set g := setParent f l w with hg
  have hgn : g.n = f.n := rfl
  have hgpar : ∀ j, g.parent j = if j = l then w else f.parent j := fun j => rfl
  have hwg : isRoot g w := by
    unfold isRoot
    rw [hgpar w, if_neg (Ne.symm hlw)]
    exact hwr
  have hTroot : ∀ j, j < f.n → isRoot f j → isRoot g (if j = l then w else j) := by
    intro j hjlt hjr
    by_cases hjl : j = l
    · rw [if_pos hjl]
      exact hwg
    · rw [if_neg hjl]
      unfold isRoot
      rw [hgpar j, if_neg hjl]
      exact hjr
  have haux : ∀ m j, j < f.n → isRoot f ((f.parent)^[m] j) →
      ∃ k, k ≤ m + 1 ∧ (g.parent)^[k] j =
        (if (f.parent)^[m] j = l then w else (f.parent)^[m] j) := by
    intro m
    induction m with
    | zero =>
      intro j hjlt hjr
      by_cases hjl : j = l
      · subst hjl
        refine ⟨1, by omega, ?_⟩
        simp [hgpar]
      · refine ⟨0, by omega, ?_⟩
        simp only [Function.iterate_zero, id]
        rw [if_neg hjl]
    | succ m ih =>
      intro j hjlt hjr
      by_cases hjroot : isRoot f j
      · have hfix : (f.parent)^[m + 1] j = j := iter_root_fixed f hjroot (m + 1)
        rw [hfix]
        by_cases hjl : j = l
        · subst hjl
          refine ⟨1, by omega, ?_⟩
          simp [hgpar]
        · refine ⟨0, by omega, ?_⟩
          simp only [Function.iterate_zero, id]
          rw [if_neg hjl]
      · have hjl : j ≠ l := fun h => hjroot (h ▸ hlr)
        have hr2 : isRoot f ((f.parent)^[m] (f.parent j)) := by
          rw [← Function.iterate_succ_apply]
          exact hjr
        obtain ⟨k, hk, hgk⟩ := ih (f.parent j) (hwf.1 j hjlt) hr2
        refine ⟨k + 1, by omega, ?_⟩
        rw [Function.iterate_succ_apply, hgpar j, if_neg hjl, hgk,
          Function.iterate_succ_apply]
  have hmain : ∀ j, j < f.n → (g.parent)^[g.n] j =
      (if rootOf f j = l then w else rootOf f j) ∧
      isRoot g (if rootOf f j = l then w else rootOf f j) := by
    intro j hjlt
    obtain ⟨m, hm, hroot, _⟩ := stab_bound f hwf hjlt
    have heq : (f.parent)^[m] j = rootOf f j := iter_eq_rootOf f hwf hjlt hroot
    obtain ⟨k, hk, hgk⟩ := haux m j hjlt hroot
    rw [heq] at hgk
    have hTr : isRoot g (if rootOf f j = l then w else rootOf f j) := by
      have := hTroot (rootOf f j) (rootOf_lt f hwf hjlt) (rootOf_isRoot f hwf hjlt)
      exact this
    have hsplit : (g.parent)^[g.n] j = (g.parent)^[g.n - k] ((g.parent)^[k] j) := by
      rw [← Function.iterate_add_apply]
      congr 1
      omega
    rw [hsplit, hgk, iter_root_fixed g hTr]
    exact ⟨rfl, hTr⟩
  refine ⟨⟨?_, ?_⟩, ?_⟩
  · intro j hjlt
    rw [hgpar j]
    by_cases hjl : j = l
    · rw [if_pos hjl]
      exact hw
    · rw [if_neg hjl]
      exact hwf.1 j hjlt
  · intro j hjlt
    refine ⟨g.n, ?_⟩
    rw [(hmain j hjlt).1]
    exact (hmain j hjlt).2
  · intro j hjlt
    exact (hmain j hjlt).1

/-- Every parent rewritten by `find` is rewritten to the node's own
representative (and only in-range nodes are rewritten). -/
theorem find_compress_form (f : Forest) (hwf : WF f) {i : Nat} (hi : i < f.n) :
    ∀ j, (find f i).1.parent j = f.parent j ∨
      (j < f.n ∧ (find f i).1.parent j = rootOf f j) := by
  intro j
  obtain ⟨_, _, _, _, hpar, _, _⟩ := find_spec f hwf hi
  rw [hpar j]
  by_cases hj : j ∈ pathOf f i
  · right
    refine ⟨path_lt f hwf hi hj, ?_⟩
    rw [if_pos hj]
    obtain ⟨t, _, hit⟩ := pathAux_mem f.n f i j hj
    rw [← hit, rootOf_iter f hwf hi t]
  · left
    rw [if_neg hj]

/-- Full characterisation of the merge step on two distinct roots. -/
theorem mergeRanked_spec (f1 : Forest) (hwf1 : WF f1) {w l : Nat}
    (hw : w < f1.n) (hl : l < f1.n) (hwr : isRoot f1 w) (hlr : isRoot f1 l)
    (hlw : l ≠ w) :
    WF (mergeRanked f1 w l) ∧
    (mergeRanked f1 w l).n = f1.n ∧
    (mergeRanked f1 w l).money = f1.money ∧
    (∀ j, j < f1.n → rootOf (mergeRanked f1 w l) j =
      if rootOf f1 j = l then w else rootOf f1 j) ∧
    (mergeRanked f1 w l).parent l = w ∧
    (∀ j, j ≠ l → (mergeRanked f1 w l).parent j = f1.parent j) ∧
    (f1.rank w = f1.rank l →
      ∀ j, (mergeRanked f1 w l).rank j = if j = w then f1.rank j + 1 else f1.rank j) ∧
    (f1.rank w ≠ f1.rank l → (mergeRanked f1 w l).rank = f1.rank) := by
  obtain ⟨hwf2, hroots2⟩ := attach_root f1 hwf1 hl hw hlr hwr hlw
  by_cases htie : f1.rank w = f1.rank l
  · have hstep : mergeRanked f1 w l =
        { setParent f1 l w with
          rank := fun j => if j = w then (setParent f1 l w).rank j + 1
            else (setParent f1 l w).rank j } := by
      simp [mergeRanked, htie]
    rw [hstep]
    refine ⟨hwf2, rfl, rfl, fun j hj => hroots2 j hj, ?_, ?_, ?_, ?_⟩
    · show (if l = l then w else f1.parent l) = w
      rw [if_pos rfl]
    · intro j hjl
      show (if j = l then w else f1.parent j) = f1.parent j
      rw [if_neg hjl]
    · intro _ j
      rfl
    · intro hne
      exact absurd htie hne
  · have hstep : mergeRanked f1 w l = setParent f1 l w := by
      simp [mergeRanked, htie]
    rw [hstep]
    refine ⟨hwf2, rfl, rfl, fun j hj => hroots2 j hj, ?_, ?_, ?_, ?_⟩
    · show (if l = l then w else f1.parent l) = w
      rw [if_pos rfl]
    · intro j hjl
      show (if j = l then w else f1.parent j) = f1.parent j
      rw [if_neg hjl]
    · intro htie2
      exact absurd htie2 htie
    · intro _
      rfl

/-- `nodeUnion` is `mergeRoots` on the roots of `a` and `b`, run in the
compressed heap left by the two `find` calls; that heap is well-formed
and agrees with `f` on `n`, `rank`, `money` and all representatives,
and its parent rewrites are pure compression. -/
theorem nodeUnion_as_merge (f : Forest) (hwf : WF f) {a b : Nat}
    (ha : a < f.n) (hb : b < f.n) :
    ∃ fB, nodeUnion f a b = mergeRoots fB (rootOf f a) (rootOf f b) ∧
      WF fB ∧ fB.n = f.n ∧ fB.rank = f.rank ∧ fB.money = f.money ∧
      (∀ j, j < f.n → rootOf fB j = rootOf f j) ∧
      (∀ j, fB.parent j = f.parent j ∨ (j < f.n ∧ fB.parent j = rootOf f j)) := by
  obtain ⟨ha2, han, harank, hamoney, _, hwfA, haroots⟩ := find_spec f hwf ha
  have hbA : b < (find f a).1.n := by
    rw [han]
    exact hb
  obtain ⟨hb2, hbn, hbrank, hbmoney, _, hwfB, hbroots⟩ :=
    find_spec (find f a).1 hwfA hbA
  refine ⟨(find (find f a).1 b).1, ?_, hwfB, by rw [hbn, han],
    by rw [hbrank, harank], by rw [hbmoney, hamoney], ?_, ?_⟩
  · show mergeRoots (find (find f a).1 b).1 (find f a).2 (find (find f a).1 b).2 =
      mergeRoots (find (find f a).1 b).1 (rootOf f a) (rootOf f b)
    rw [ha2, hb2, haroots b hb]
  · intro j hj
    rw [hbroots j (by rw [han]; exact hj), haroots j hj]
  · intro j
    rcases find_compress_form (find f a).1 hwfA hbA j with h | ⟨hjlt, h⟩
    · rcases find_compress_form f hwf ha j with h2 | ⟨hjlt2, h2⟩
      · left
        rw [h, h2]
      · right
        refine ⟨hjlt2, ?_⟩
        rw [h, h2]
    · right
      rw [han] at hjlt
      refine ⟨hjlt, ?_⟩
      rw [h]
      exact haroots j hjlt

/-- A `nodeUnion` whose arguments already share a representative: the
result is just the heap after the two compressing `find` calls. -/
theorem nodeUnion_same (f : Forest) (hwf : WF f) {a b : Nat}
    (ha : a < f.n) (hb : b < f.n) (hab : rootOf f a = rootOf f b) :
    WF (nodeUnion f a b) ∧ (nodeUnion f a b).n = f.n ∧
    (nodeUnion f a b).rank = f.rank ∧ (nodeUnion f a b).money = f.money ∧
    (∀ j, j < f.n → rootOf (nodeUnion f a b) j = rootOf f j) ∧
    (∀ j, (nodeUnion f a b).parent j = f.parent j ∨
      (j < f.n ∧ (nodeUnion f a b).parent j = rootOf f j)) := by
  obtain ⟨fB, hu, hwfB, hn, hrank, hmoney, hroots, hpar⟩ :=
    nodeUnion_as_merge f hwf ha hb
  have hm : mergeRoots fB (rootOf f a) (rootOf f b) = fB := by
    unfold mergeRoots
    rw [if_pos hab]
  rw [hu, hm]
  exact ⟨hwfB, hn, hrank, hmoney, hroots, hpar⟩

/-- A merging `nodeUnion`: the loser root is attached below the winner,
the loser's class is redirected to the winner, the winner's rank is
bumped exactly on a tie, and all other parent rewrites are compression. -/
theorem nodeUnion_merge (f : Forest) (hwf : WF f) {a b : Nat}
    (ha : a < f.n) (hb : b < f.n) (hab : rootOf f a ≠ rootOf f b) :
    WF (nodeUnion f a b) ∧ (nodeUnion f a b).n = f.n ∧
    (nodeUnion f a b).money = f.money ∧
    (∀ j, j < f.n → rootOf (nodeUnion f a b) j =
      if rootOf f j = unionLoser f a b then unionWinner f a b else rootOf f j) ∧
    (nodeUnion f a b).parent (unionLoser f a b) = unionWinner f a b ∧
    (∀ j, j ≠ unionLoser f a b → ((nodeUnion f a b).parent j = f.parent j ∨
      (j < f.n ∧ (nodeUnion f a b).parent j = rootOf f j))) ∧
    (f.rank (rootOf f a) = f.rank (rootOf f b) →
      ∀ j, (nodeUnion f a b).rank j =
        if j = rootOf f a then f.rank j + 1 else f.rank j) ∧
    (f.rank (rootOf f a) ≠ f.rank (rootOf f b) →
      (nodeUnion f a b).rank = f.rank) := by
  obtain ⟨fB, hu, hwfB, hn, hrank, hmoney, hroots, hpar⟩ :=
    nodeUnion_as_merge f hwf ha hb
  have hm : mergeRoots fB (rootOf f a) (rootOf f b) =
      mergeRanked fB (unionWinner f a b) (unionLoser f a b) := by
    unfold mergeRoots unionWinner unionLoser
    rw [if_neg hab, hrank]
  have hwin : unionWinner f a b < fB.n := by
    rw [hn]
    unfold unionWinner
    by_cases h : f.rank (rootOf f a) < f.rank (rootOf f b)
    · rw [if_pos h]
      exact rootOf_lt f hwf hb
    · rw [if_neg h]
      exact rootOf_lt f hwf ha
  have hlos : unionLoser f a b < fB.n := by
    rw [hn]
    unfold unionLoser
    by_cases h : f.rank (rootOf f a) < f.rank (rootOf f b)
    · rw [if_pos h]
      exact rootOf_lt f hwf ha
    · rw [if_neg h]
      exact rootOf_lt f hwf hb
  have hrootB : ∀ x, x < f.n → isRoot fB (rootOf f x) := by
    intro x hx
    have h1 : rootOf fB x = rootOf f x := hroots x hx
    have h2 : isRoot fB (rootOf fB x) :=
      rootOf_isRoot fB hwfB (by rw [hn]; exact hx)
    rw [h1] at h2
    exact h2
  have hwinr : isRoot fB (unionWinner f a b) := by
    unfold unionWinner
    by_cases h : f.rank (rootOf f a) < f.rank (rootOf f b)
    · rw [if_pos h]
      exact hrootB b hb
    · rw [if_neg h]
      exact hrootB a ha
  have hlosr : isRoot fB (unionLoser f a b) := by
    unfold unionLoser
    by_cases h : f.rank (rootOf f a) < f.rank (rootOf f b)
    · rw [if_pos h]
      exact hrootB a ha
    · rw [if_neg h]
      exact hrootB b hb
  have hlw : unionLoser f a b ≠ unionWinner f a b := by
    unfold unionWinner unionLoser
    by_cases h : f.rank (rootOf f a) < f.rank (rootOf f b)
    · rw [if_pos h, if_pos h]
      exact hab
    · rw [if_neg h, if_neg h]
      exact Ne.symm hab
  obtain ⟨hwfM, hMn, hMmoney, hMroots, hMparl, hMpar, hMtie, hMnotie⟩ :=
    mergeRanked_spec fB hwfB hwin hlos hwinr hlosr hlw
  have hranks : fB.rank (unionWinner f a b) = f.rank (unionWinner f a b) := by
    rw [hrank]
  rw [hu, hm]
  refine ⟨hwfM, by rw [hMn, hn], by rw [hMmoney, hmoney], ?_, hMparl, ?_, ?_, ?_⟩
  · intro j hj
    rw [hMroots j (by rw [hn]; exact hj), hroots j hj]
  · intro j hjl
    rw [hMpar j hjl]
    exact hpar j
  · intro htie j
    have htieB : fB.rank (unionWinner f a b) = fB.rank (unionLoser f a b) := by
      rw [hrank]
      unfold unionWinner unionLoser
      by_cases h : f.rank (rootOf f a) < f.rank (rootOf f b)
      · rw [if_pos h, if_pos h]
        omega
      · rw [if_neg h, if_neg h]
        omega
    have hwa : unionWinner f a b = rootOf f a := by
      unfold unionWinner
      rw [if_neg (by omega)]
    rw [hMtie htieB j, hrank, hwa]
  · intro hne
    have hneB : fB.rank (unionWinner f a b) ≠ fB.rank (unionLoser f a b) := by
      rw [hrank]
      unfold unionWinner unionLoser
      by_cases h : f.rank (rootOf f a) < f.rank (rootOf f b)
      · rw [if_pos h, if_pos h]
        omega
      · rw [if_neg h, if_neg h]
        omega
    rw [hMnotie hneB, hrank]

theorem applyOp_spec (f : Forest) (hwf : WF f) (op : Op)
    (hv : opValid f.n op) :
    WF (applyOp f op) ∧ (applyOp f op).n = f.n ∧
    (applyOp f op).money = f.money ∧
    (∀ x y, x < f.n → y < f.n → rootOf f x = rootOf f y →
      rootOf (applyOp f op) x = rootOf (applyOp f op) y) := by
  cases op with
  | findOp i =>
    have hv2 : i < f.n := hv
    obtain ⟨_, hn, _, hmoney, _, hwf2, hroots⟩ := find_spec f hwf hv2
    refine ⟨hwf2, hn, hmoney, ?_⟩
    intro x y hx hy hxy
    show rootOf (find f i).1 x = rootOf (find f i).1 y
    rw [hroots x hx, hroots y hy]
    exact hxy
  | unionOp a b =>
    have hv2 : a < f.n ∧ b < f.n := hv
    by_cases hab : rootOf f a = rootOf f b
    · obtain ⟨hwf2, hn, _, hmoney, hroots, _⟩ :=
        nodeUnion_same f hwf hv2.1 hv2.2 hab
      refine ⟨hwf2, hn, hmoney, ?_⟩
      intro x y hx hy hxy
      show rootOf (nodeUnion f a b) x = rootOf (nodeUnion f a b) y
      rw [hroots x hx, hroots y hy]
      exact hxy
    · obtain ⟨hwf2, hn, hmoney, hroots, _⟩ :=
        nodeUnion_merge f hwf hv2.1 hv2.2 hab
      refine ⟨hwf2, hn, hmoney, ?_⟩
      intro x y hx hy hxy
      show rootOf (nodeUnion f a b) x = rootOf (nodeUnion f a b) y
      rw [hroots x hx, hroots y hy, hxy]

theorem applyOps_spec (ops : List Op) :
    ∀ f : Forest, WF f → OpsValid f.n ops →
      WF (applyOps f ops) ∧ (applyOps f ops).n = f.n ∧
      (applyOps f ops).money = f.money ∧
      (∀ x y, x < f.n → y < f.n → rootOf f x = rootOf f y →
        rootOf (applyOps f ops) x = rootOf (applyOps f ops) y) := by
  induction ops with
  | nil =>
    intro f hwf _
    exact ⟨hwf, rfl, rfl, fun x y _ _ h => h⟩
  | cons op ops ih =>
    intro f hwf hv
    have hv1 : opValid f.n op := hv op (List.mem_cons_self op ops)
    obtain ⟨hwf1, hn1, hmoney1, hpres1⟩ := applyOp_spec f hwf op hv1
    have hv2 : OpsValid (applyOp f op).n ops := by
      intro op2 hop2
      rw [hn1]
      exact hv op2 (List.mem_cons_of_mem op hop2)
    obtain ⟨hwf2, hn2, hmoney2, hpres2⟩ := ih (applyOp f op) hwf1 hv2
    have hfold : applyOps f (op :: ops) = applyOps (applyOp f op) ops := rfl
    rw [hfold]
    refine ⟨hwf2, by rw [hn2, hn1], by rw [hmoney2, hmoney1], ?_⟩
    intro x y hx hy hxy
    exact hpres2 x y (by rw [hn1]; exact hx) (by rw [hn1]; exact hy)
      (hpres1 x y hx hy hxy)

theorem make_WF (n : Nat) (money : Nat → Int) : WF (make n money) :=
  ⟨fun _ hi => hi, fun _ _ => ⟨0, rfl⟩⟩

theorem wrap32_zero : wrap32 0 = 0 := by decide

/-- Wrapping is a congruence for addition: normalizing the left operand
first does not change the wrapped sum. -/
theorem wrap32_add_left (a b : Int) : wrap32 (wrap32 a + b) = wrap32 (a + b) := by
  unfold wrap32
  have h31 : (2 : Int) ^ 31 = 2147483648 := by norm_num
  have h32 : (2 : Int) ^ 32 = 4294967296 := by norm_num
  rw [h31, h32]
  omega

/-- A value already inside the 32-bit `int` range is left unchanged. -/
theorem wrap32_eq_self {z : Int} (h1 : -(2 ^ 31) ≤ z) (h2 : z < 2 ^ 31) :
    wrap32 z = z := by
  unfold wrap32
  have h31 : (2 : Int) ^ 31 = 2147483648 := by norm_num
  have h32 : (2 : Int) ^ 32 = 4294967296 := by norm_num
  rw [h31, h32] at *
  omega

theorem scanSum_append (f : Forest) (l : List Nat) (x r : Nat) :
    scanSum f (l ++ [x]) r =
      scanSum f l r + (if rootOf f x = r then f.money x else 0) := by
  unfold scanSum
  rw [List.filter_append]
  by_cases h : rootOf f x = r
  · simp [h]
  · simp [h]

theorem scanSum_perm (f : Forest) {o1 o2 : List Nat} (hp : o1.Perm o2)
    (r : Nat) : scanSum f o1 r = scanSum f o2 r :=
  List.Perm.sum_eq (List.Perm.map _ (List.Perm.filter _ hp))

/-- Invariant of `main`'s aggregation loop: after scanning `order`, the
heap still represents the same partition, each stored total is the
32-bit wrap of the exact sum of the scanned values keyed by that
representative (wrapping each addition, like the `int` totals, yields
the wrap of the exact sum), and the keys are exactly the
representatives seen. -/
theorem scanState_spec (f : Forest) (hwf : WF f) :
    ∀ order : List Nat, (∀ i ∈ order, i < f.n) →
      WF (scanState f order).forest ∧
      (scanState f order).forest.n = f.n ∧
      (scanState f order).forest.money = f.money ∧
      (∀ j, j < f.n → rootOf (scanState f order).forest j = rootOf f j) ∧
      (∀ r, (scanState f order).sums r = wrap32 (scanSum f order r)) ∧
      (∀ r, r ∈ (scanState f order).keys ↔ ∃ i ∈ order, rootOf f i = r) := by
  intro order
  induction order using List.reverseRecOn with
  | nil =>
    intro _
    refine ⟨hwf, rfl, rfl, fun j _ => rfl, fun r => wrap32_zero.symm, fun r => ?_⟩
    simp [scanState]
  | append_singleton l x ih =>
    intro hvalid
    have hvl : ∀ i ∈ l, i < f.n := fun i hi => hvalid i (List.mem_append_left _ hi)
    have hx : x < f.n := hvalid x (List.mem_append_right _ (List.mem_singleton.mpr rfl))
    obtain ⟨ihwf, ihn, ihmoney, ihroots, ihsums, ihkeys⟩ := ih hvl
    have hstep : scanState f (l ++ [x]) = addEntity (scanState f l) x := by
      unfold scanState
      rw [List.foldl_append]
      rfl
    have hxS : x < (scanState f l).forest.n := by
      rw [ihn]
      exact hx
    obtain ⟨hfind2, hfn, _, hfmoney, _, hfwf, hfroots⟩ :=
      find_spec (scanState f l).forest ihwf hxS
    have hrx : (find (scanState f l).forest x).2 = rootOf f x := by
      rw [hfind2, ihroots x hx]
    rw [hstep]
    refine ⟨hfwf,
      by show (find (scanState f l).forest x).1.n = f.n; rw [hfn, ihn],
      by show (find (scanState f l).forest x).1.money = f.money
         rw [hfmoney, ihmoney],
      ?_, ?_, ?_⟩
    · intro j hj
      show rootOf (find (scanState f l).forest x).1 j = rootOf f j
      rw [hfroots j (by rw [ihn]; exact hj), ihroots j hj]
    · intro r
      show (if r = (find (scanState f l).forest x).2
          then wrap32 ((scanState f l).sums (find (scanState f l).forest x).2 +
            (find (scanState f l).forest x).1.money x)
          else (scanState f l).sums r) = wrap32 (scanSum f (l ++ [x]) r)
      rw [scanSum_append, hrx, hfmoney, ihmoney]
      by_cases hr : r = rootOf f x
      · rw [if_pos hr, if_pos (by rw [hr]), ihsums, hr, wrap32_add_left]
      · rw [if_neg hr, if_neg (fun h => hr h.symm), ihsums, add_zero]
    · intro r
      show r ∈ (if (find (scanState f l).forest x).2 ∈ (scanState f l).keys
          then (scanState f l).keys
          else (scanState f l).keys ++ [(find (scanState f l).forest x).2]) ↔ _
      rw [hrx]
      constructor
      · intro hr
        by_cases hmem : rootOf f x ∈ (scanState f l).keys
        · rw [if_pos hmem] at hr
          obtain ⟨i, hi, hri⟩ := (ihkeys r).mp hr
          exact ⟨i, List.mem_append_left _ hi, hri⟩
        · rw [if_neg hmem] at hr
          rcases List.mem_append.mp hr with h | h
          · obtain ⟨i, hi, hri⟩ := (ihkeys r).mp h
            exact ⟨i, List.mem_append_left _ hi, hri⟩
          · refine ⟨x, List.mem_append_right _ (List.mem_singleton.mpr rfl), ?_⟩
            rw [List.mem_singleton.mp h]
      · rintro ⟨i, hi, hri⟩
        rcases List.mem_append.mp hi with h | h
        · have hrk : r ∈ (scanState f l).keys := (ihkeys r).mpr ⟨i, h, hri⟩
          by_cases hmem : rootOf f x ∈ (scanState f l).keys
          · rw [if_pos hmem]
            exact hrk
          · rw [if_neg hmem]
            exact List.mem_append_left _ hrk
        · have hix : i = x := List.mem_singleton.mp h
          subst hix
          rw [← hri]
          by_cases hmem : rootOf f i ∈ (scanState f l).keys
          · rw [if_pos hmem]
            exact hmem
          · rw [if_neg hmem]
            exact List.mem_append_right _ (List.mem_singleton.mpr rfl)

theorem verdict_eq_of_iff {v1 v2 : Verdict}
    (h : v1 = Verdict.POSSIBLE ↔ v2 = Verdict.POSSIBLE) : v1 = v2 := by
  cases v1 <;> cases v2 <;> simp_all

theorem verifyScan_possible_iff (f : Forest) (hwf : WF f) (order : List Nat)
    (hord : ∀ i ∈ order, i < f.n) :
    verifyScan f order = Verdict.POSSIBLE ↔
      ∀ i ∈ order, wrap32 (scanSum f order (rootOf f i)) = 0 := by
  obtain ⟨_, _, _, _, hsums, hkeys⟩ := scanState_spec f hwf order hord
  unfold verifyScan
  by_cases hall : (scanState f order).keys.all
      (fun r => (scanState f order).sums r == 0) = true
  · rw [if_pos hall]
    constructor
    · intro _ i hi
      have hr : rootOf f i ∈ (scanState f order).keys :=
        (hkeys (rootOf f i)).mpr ⟨i, hi, rfl⟩
      have hz := List.all_eq_true.mp hall _ hr
      have h0 : (scanState f order).sums (rootOf f i) = 0 := by
        simpa using hz
      rw [← hsums (rootOf f i)]
      exact h0
    · intro _
      rfl
  · rw [if_neg hall]
    constructor
    · intro h
      simp at h
    · intro hzero
      exfalso
      apply hall
      rw [List.all_eq_true]
      intro r hr
      obtain ⟨i, hi, hri⟩ := (hkeys r).mp hr
      have : (scanState f order).sums r = 0 := by
        rw [hsums r, ← hri]
        exact hzero i hi
      simpa using this

theorem verify_possible_iff (f : Forest) (hwf : WF f) :
    verify f = Verdict.POSSIBLE ↔
      ∀ i, i < f.n → wrap32 (groupSum f (rootOf f i)) = 0 := by
  unfold verify groupSum
  rw [verifyScan_possible_iff f hwf (List.range f.n)
    (fun i hi => List.mem_range.mp hi)]
  constructor
  · intro h i hi
    exact h i (List.mem_range.mpr hi)
  · intro h i hi
    exact h i (List.mem_range.mp hi)

/-- The verdict depends only on the partition and the values. -/
theorem verify_partition_det (f1 f2 : Forest) (hwf1 : WF f1) (hwf2 : WF f2)
    (hn : f1.n = f2.n) (hmoney : ∀ i, i < f1.n → f1.money i = f2.money i)
    (hsame : ∀ x y, x < f1.n → y < f1.n →
      (rootOf f1 x = rootOf f1 y ↔ rootOf f2 x = rootOf f2 y)) :
    verify f1 = verify f2 := by
  have hgs : ∀ i, i < f1.n → groupSum f1 (rootOf f1 i) = groupSum f2 (rootOf f2 i) := by
    intro i hi
    unfold groupSum scanSum
    rw [← hn]
    have hfilter : (List.range f1.n).filter (fun j => decide (rootOf f1 j = rootOf f1 i)) =
        (List.range f1.n).filter (fun j => decide (rootOf f2 j = rootOf f2 i)) := by
      apply List.filter_congr
      intro j hj
      exact decide_eq_decide.mpr (hsame j i (List.mem_range.mp hj) hi)
    rw [hfilter]
    apply congrArg
    apply List.map_congr_left
    intro x hx
    have hxmem : x ∈ List.range f1.n := List.mem_of_mem_filter hx
    exact hmoney x (List.mem_range.mp hxmem)
  apply verdict_eq_of_iff
  rw [verify_possible_iff f1 hwf1, verify_possible_iff f2 hwf2]
  constructor
  · intro h i hi
    have hi1 : i < f1.n := by omega
    rw [← hgs i hi1]
    exact h i hi1
  · intro h i hi
    have hi2 : i < f2.n := by omega
    rw [hgs i hi]
    exact h i hi2

/-- Scanning the entities in any order that is a permutation of the
index order yields the same verdict. -/
theorem verifyScan_perm (f : Forest) (hwf : WF f) {order : List Nat}
    (hperm : order.Perm (List.range f.n)) :
    verifyScan f order = verify f := by
  have hord : ∀ i ∈ order, i < f.n := fun i hi =>
    List.mem_range.mp (hperm.mem_iff.mp hi)
  apply verdict_eq_of_iff
  rw [verifyScan_possible_iff f hwf order hord, verify_possible_iff f hwf]
  constructor
  · intro h i hi
    have him : i ∈ order := hperm.mem_iff.mpr (List.mem_range.mpr hi)
    have hres := h i him
    rw [scanSum_perm f hperm] at hres
    exact hres
  · intro h i hi
    rw [scanSum_perm f hperm]
    exact h i (hord i hi)

/-- `query` answers whether the two entities share a representative. -/
theorem query_true_iff (f : Forest) (hwf : WF f) {a b : Nat}
    (ha : a < f.n) (hb : b < f.n) :
    (query f a b).2 = true ↔ rootOf f a = rootOf f b := by
  obtain ⟨ha2, han, _, _, _, hwfA, haroots⟩ := find_spec f hwf ha
  have hbA : b < (find f a).1.n := by
    rw [han]
    exact hb
  obtain ⟨hb2, _, _, _, _, _, _⟩ := find_spec (find f a).1 hwfA hbA
  show decide ((find f a).2 = (find (find f a).1 b).2) = true ↔ _
  rw [ha2, hb2, haroots b hb]
  exact decide_eq_true_iff

/-- After `nodeUnion f a b`, the two arguments share a representative. -/
theorem nodeUnion_roots_merged (f : Forest) (hwf : WF f) {a b : Nat}
    (ha : a < f.n) (hb : b < f.n) :
    rootOf (nodeUnion f a b) a = rootOf (nodeUnion f a b) b := by
  by_cases hab : rootOf f a = rootOf f b
  · obtain ⟨_, _, _, _, hroots, _⟩ := nodeUnion_same f hwf ha hb hab
    rw [hroots a ha, hroots b hb]
    exact hab
  · obtain ⟨_, _, _, hroots, _⟩ := nodeUnion_merge f hwf ha hb hab
    rw [hroots a ha, hroots b hb]
    unfold unionWinner unionLoser
    by_cases h : f.rank (rootOf f a) < f.rank (rootOf f b)
    · rw [if_pos h, if_pos h, if_pos rfl, if_neg (fun hc => hab hc.symm)]
    · rw [if_neg h, if_neg h, if_neg hab, if_pos rfl]

theorem applyUnions_eq_applyOps (f : Forest) (us : List (Nat × Nat)) :
    applyUnions f us = applyOps f (us.map (fun u => Op.unionOp u.1 u.2)) := by
  unfold applyUnions applyOps
  rw [List.foldl_map]
  rfl

theorem applyUnions_spec (f : Forest) (hwf : WF f) (us : List (Nat × Nat))
    (hv : UnionsValid f.n us) :
    WF (applyUnions f us) ∧ (applyUnions f us).n = f.n ∧
    (applyUnions f us).money = f.money := by
  have hops : OpsValid f.n (us.map (fun u => Op.unionOp u.1 u.2)) := by
    intro op hop
    obtain ⟨u, hu, rfl⟩ := List.mem_map.mp hop
    exact hv u hu
  obtain ⟨h1, h2, h3, _⟩ :=
    applyOps_spec (us.map (fun u => Op.unionOp u.1 u.2)) f hwf hops
  rw [applyUnions_eq_applyOps]
  exact ⟨h1, h2, h3⟩

/-- The merge step never rewrites the parent of a node other than the
attached (losing) root. -/
theorem mergeRanked_parent_ne (f1 : Forest) (w l j : Nat) (hj : j ≠ l) :
    (mergeRanked f1 w l).parent j = f1.parent j := by
  by_cases htie : f1.rank w = f1.rank l
  · have hstep : mergeRanked f1 w l =
        { setParent f1 l w with
          rank := fun j2 => if j2 = w then (setParent f1 l w).rank j2 + 1
            else (setParent f1 l w).rank j2 } := by
      simp [mergeRanked, htie]
    rw [hstep]
    show (if j = l then w else f1.parent j) = f1.parent j
    rw [if_neg hj]
  · have hstep : mergeRanked f1 w l = setParent f1 l w := by
      simp [mergeRanked, htie]
    rw [hstep]
    show (if j = l then w else f1.parent j) = f1.parent j
    rw [if_neg hj]

/-- Localization of `nodeUnion`'s parent writes: a node that lies on
neither of the two embedded `find` paths and is not the losing root
keeps its parent link unchanged. -/
theorem nodeUnion_untouched (f : Forest) (hwf : WF f) {a b : Nat}
    (ha : a < f.n) (hb : b < f.n) :
    ∀ j, j ∉ pathOf f a → j ∉ pathOf (find f a).1 b →
      j ≠ unionLoser f a b → (nodeUnion f a b).parent j = f.parent j := by
  intro j hj1 hj2 hj3
  obtain ⟨ha2, han, harank, _, hapar, hwfA, haroots⟩ := find_spec f hwf ha
  have hbA : b < (find f a).1.n := by
    rw [han]
    exact hb
  obtain ⟨hb2, _, hbrank, _, hbpar, _, _⟩ := find_spec (find f a).1 hwfA hbA
  have hAj : (find f a).1.parent j = f.parent j := by
    rw [hapar j, if_neg hj1]
  have hBj : (find (find f a).1 b).1.parent j = f.parent j := by
    rw [hbpar j, if_neg hj2, hAj]
  show (mergeRoots (find (find f a).1 b).1 (find f a).2
    (find (find f a).1 b).2).parent j = f.parent j
  by_cases hab : (find f a).2 = (find (find f a).1 b).2
  · unfold mergeRoots
    rw [if_pos hab]
    exact hBj
  · unfold mergeRoots
    rw [if_neg hab]
    have hra : (find f a).2 = rootOf f a := ha2
    have hrb : (find (find f a).1 b).2 = rootOf f b := by
      rw [hb2, haroots b hb]
    have hrkB : (find (find f a).1 b).1.rank = f.rank := by
      rw [hbrank, harank]
    have hL : (if (find (find f a).1 b).1.rank (find f a).2 <
          (find (find f a).1 b).1.rank (find (find f a).1 b).2
        then (find f a).2 else (find (find f a).1 b).2) = unionLoser f a b := by
      rw [hra, hrb, hrkB]
      rfl
    have hjne : j ≠ (if (find (find f a).1 b).1.rank (find f a).2 <
          (find (find f a).1 b).1.rank (find (find f a).1 b).2
        then (find f a).2 else (find (find f a).1 b).2) := by
      rw [hL]
      exact hj3
    rw [mergeRanked_parent_ne _ _ _ j hjne]
    exact hBj

/-- C1 as stated fails on the code: the totals accumulate in wrapping
32-bit `int`, so merging two entities of value -2^31 into one group
wraps the total to 0 and `verify` answers `POSSIBLE` although the
exact group sum is -2^32 ≠ 0. -/
theorem claim_C1_counterexample :
    verify (applyUnions (make 2 (fun _ => -2147483648)) [(0, 1)]) =
      Verdict.POSSIBLE ∧
    groupSum (applyUnions (make 2 (fun _ => -2147483648)) [(0, 1)])
      (rootOf (applyUnions (make 2 (fun _ => -2147483648)) [(0, 1)]) 0) ≠ 0 := by
  refine ⟨by decide, by decide⟩

/-- C1 (amended): `verify` answers `POSSIBLE` iff every group's total,
taken in the program's wrapping 32-bit `int` arithmetic, is zero — in
particular on the empty forest — and `IMPOSSIBLE` otherwise; whenever
every group's exact sum fits in 32-bit `int` (no overflow), this is the
original criterion: `POSSIBLE` iff every group's exact sum is zero
(so a singleton group of value 5 still yields `IMPOSSIBLE`). -/
theorem claim_C1_verify_iff_zero_sums (f : Forest) (hwf : WF f) :
    (verify f = Verdict.POSSIBLE ↔
      ∀ i, i < f.n → wrap32 (groupSum f (rootOf f i)) = 0) ∧
    (verify f = Verdict.IMPOSSIBLE ↔
      ¬ ∀ i, i < f.n → wrap32 (groupSum f (rootOf f i)) = 0) ∧
    (f.n = 0 → verify f = Verdict.POSSIBLE) ∧
    ((∀ i, i < f.n → -(2 ^ 31) ≤ groupSum f (rootOf f i) ∧
        groupSum f (rootOf f i) < 2 ^ 31) →
      (verify f = Verdict.POSSIBLE ↔
        ∀ i, i < f.n → groupSum f (rootOf f i) = 0)) := by
  have h1 := verify_possible_iff f hwf
  refine ⟨h1, ?_, ?_, ?_⟩
  · constructor
    · intro h2 hall
      have h3 := h1.mpr hall
      rw [h3] at h2
      exact absurd h2 (by decide)
    · intro hnall
      cases hv : verify f with
      | POSSIBLE => exact absurd (h1.mp hv) hnall
      | IMPOSSIBLE => rfl
  · intro hn0
    exact h1.mpr (fun i hi => by omega)
  · intro hrange
    rw [h1]
    constructor
    · intro h i hi
      have hz := h i hi
      rw [wrap32_eq_self (hrange i hi).1 (hrange i hi).2] at hz
      exact hz
    · intro h i hi
      rw [wrap32_eq_self (hrange i hi).1 (hrange i hi).2]
      exact h i hi

theorem claim_C1_witness :
    WF (make 1 (fun _ => 5)) ∧
    ((verify (make 1 (fun _ => 5)) = Verdict.POSSIBLE ↔
        ∀ i, i < (make 1 (fun _ => 5)).n →
          wrap32 (groupSum (make 1 (fun _ => 5)) (rootOf (make 1 (fun _ => 5)) i)) = 0) ∧
     (verify (make 1 (fun _ => 5)) = Verdict.IMPOSSIBLE ↔
        ¬ ∀ i, i < (make 1 (fun _ => 5)).n →
          wrap32 (groupSum (make 1 (fun _ => 5)) (rootOf (make 1 (fun _ => 5)) i)) = 0) ∧
     ((make 1 (fun _ => 5)).n = 0 →
        verify (make 1 (fun _ => 5)) = Verdict.POSSIBLE) ∧
     ((∀ i, i < (make 1 (fun _ => 5)).n →
         -(2 ^ 31) ≤ groupSum (make 1 (fun _ => 5)) (rootOf (make 1 (fun _ => 5)) i) ∧
         groupSum (make 1 (fun _ => 5)) (rootOf (make 1 (fun _ => 5)) i) < 2 ^ 31) →
       (verify (make 1 (fun _ => 5)) = Verdict.POSSIBLE ↔
         ∀ i, i < (make 1 (fun _ => 5)).n →
           groupSum (make 1 (fun _ => 5)) (rootOf (make 1 (fun _ => 5)) i) = 0))) :=
  ⟨make_WF 1 (fun _ => 5),
   claim_C1_verify_iff_zero_sums (make 1 (fun _ => 5)) (make_WF 1 (fun _ => 5))⟩

/-- C2: `find f i` returns the representative of `i`'s group (the root
at the end of `i`'s parent path), rewrites the parent of every visited
entity so it points directly at that root, touches no other parent, and
group membership is unchanged by any sequence of `find` calls. -/
theorem claim_C2_find_compression (f : Forest) (hwf : WF f) (i : Nat)
    (hi : i < f.n) :
    (find f i).2 = rootOf f i ∧
    isRoot f (rootOf f i) ∧
    (∀ j, j ∈ pathOf f i → (find f i).1.parent j = rootOf f i) ∧
    (∀ j, j ∉ pathOf f i → (find f i).1.parent j = f.parent j) ∧
    (∀ js, (∀ j ∈ js, j < f.n) →
      ∀ j, j < f.n → rootOf (applyFinds f js) j = rootOf f j) := by
  obtain ⟨h2, _, _, _, hpar, _, _⟩ := find_spec f hwf hi
  refine ⟨h2, rootOf_isRoot f hwf hi, ?_, ?_, ?_⟩
  · intro j hj
    rw [hpar j, if_pos hj]
  · intro j hj
    rw [hpar j, if_neg hj]
  · intro js hjs j hj
    exact (applyFinds_spec js f hwf hjs).2.2.2.2 j hj

theorem claim_C2_witness :
    WF chain3 ∧ 0 < chain3.n ∧
    ((find chain3 0).2 = rootOf chain3 0 ∧
     isRoot chain3 (rootOf chain3 0) ∧
     (∀ j, j ∈ pathOf chain3 0 → (find chain3 0).1.parent j = rootOf chain3 0) ∧
     (∀ j, j ∉ pathOf chain3 0 → (find chain3 0).1.parent j = chain3.parent j) ∧
     (∀ js, (∀ j ∈ js, j < chain3.n) →
       ∀ j, j < chain3.n → rootOf (applyFinds chain3 js) j = rootOf chain3 j)) :=
  ⟨WF_of_WFb chain3 (by decide), by decide,
   claim_C2_find_compression chain3 (WF_of_WFb chain3 (by decide)) 0 (by decide)⟩

/-- C3 as stated fails on the code: entities 0 and 1 of `chain3` already
share the representative 2, yet `nodeUnion chain3 0 1` is not a no-op —
the embedded `find` rewrites 0's parent from 1 to 2 (path compression). -/
theorem claim_C3_counterexample :
    rootOf chain3 0 = rootOf chain3 1 ∧
    (nodeUnion chain3 0 1).parent 0 ≠ chain3.parent 0 := by decide

/-- C3 (amended): if `a` and `b` already share a representative,
`nodeUnion` merges nothing — membership, every rank and every value are
unchanged, and any parent rewrite is path compression toward the node's
own existing representative; otherwise the root of lower rank is
attached below the root of higher rank, and on a rank tie the root of
`a` becomes the parent and its rank grows by exactly one, no other rank
changing. -/
theorem claim_C3_union_by_rank (f : Forest) (hwf : WF f) (a b : Nat)
    (ha : a < f.n) (hb : b < f.n) :
    (rootOf f a = rootOf f b →
      (∀ j, j < f.n → rootOf (nodeUnion f a b) j = rootOf f j) ∧
      (nodeUnion f a b).rank = f.rank ∧
      (nodeUnion f a b).money = f.money ∧
      (∀ j, (nodeUnion f a b).parent j = f.parent j ∨
        (j < f.n ∧ (nodeUnion f a b).parent j = rootOf f j))) ∧
    (rootOf f a ≠ rootOf f b →
      (f.rank (rootOf f a) < f.rank (rootOf f b) →
        (nodeUnion f a b).parent (rootOf f a) = rootOf f b) ∧
      (f.rank (rootOf f b) < f.rank (rootOf f a) →
        (nodeUnion f a b).parent (rootOf f b) = rootOf f a) ∧
      (f.rank (rootOf f a) = f.rank (rootOf f b) →
        (nodeUnion f a b).parent (rootOf f b) = rootOf f a ∧
        (nodeUnion f a b).rank (rootOf f a) = f.rank (rootOf f a) + 1 ∧
        (∀ j, j ≠ rootOf f a → (nodeUnion f a b).rank j = f.rank j)) ∧
      (f.rank (rootOf f a) ≠ f.rank (rootOf f b) →
        (nodeUnion f a b).rank = f.rank)) := by
  constructor
  · intro hab
    obtain ⟨_, _, hrank, hmoney, hroots, hpar⟩ := nodeUnion_same f hwf ha hb hab
    exact ⟨hroots, hrank, hmoney, hpar⟩
  · intro hab
    obtain ⟨_, _, _, _, hparl, _, htie, hnotie⟩ := nodeUnion_merge f hwf ha hb hab
    refine ⟨?_, ?_, ?_, hnotie⟩
    · intro hlt
      have hl : unionLoser f a b = rootOf f a := by
        unfold unionLoser
        rw [if_pos hlt]
      have hw : unionWinner f a b = rootOf f b := by
        unfold unionWinner
        rw [if_pos hlt]
      rw [← hl, ← hw]
      exact hparl
    · intro hlt
      have hl : unionLoser f a b = rootOf f b := by
        unfold unionLoser
        rw [if_neg (by omega)]
      have hw : unionWinner f a b = rootOf f a := by
        unfold unionWinner
        rw [if_neg (by omega)]
      rw [← hl, ← hw]
      exact hparl
    · intro heq
      have hl : unionLoser f a b = rootOf f b := by
        unfold unionLoser
        rw [if_neg (by omega)]
      have hw : unionWinner f a b = rootOf f a := by
        unfold unionWinner
        rw [if_neg (by omega)]
      refine ⟨?_, ?_, ?_⟩
      · rw [← hl, ← hw]
        exact hparl
      · rw [htie heq (rootOf f a), if_pos rfl]
      · intro j hj
        rw [htie heq j, if_neg hj]

theorem claim_C3_witness :
    WF chain3plus1 ∧ 0 < chain3plus1.n ∧ 3 < chain3plus1.n ∧
    ((rootOf chain3plus1 0 = rootOf chain3plus1 3 →
      (∀ j, j < chain3plus1.n →
        rootOf (nodeUnion chain3plus1 0 3) j = rootOf chain3plus1 j) ∧
      (nodeUnion chain3plus1 0 3).rank = chain3plus1.rank ∧
      (nodeUnion chain3plus1 0 3).money = chain3plus1.money ∧
      (∀ j, (nodeUnion chain3plus1 0 3).parent j = chain3plus1.parent j ∨
        (j < chain3plus1.n ∧
          (nodeUnion chain3plus1 0 3).parent j = rootOf chain3plus1 j))) ∧
    (rootOf chain3plus1 0 ≠ rootOf chain3plus1 3 →
      (chain3plus1.rank (rootOf chain3plus1 0) < chain3plus1.rank (rootOf chain3plus1 3) →
        (nodeUnion chain3plus1 0 3).parent (rootOf chain3plus1 0) = rootOf chain3plus1 3) ∧
      (chain3plus1.rank (rootOf chain3plus1 3) < chain3plus1.rank (rootOf chain3plus1 0) →
        (nodeUnion chain3plus1 0 3).parent (rootOf chain3plus1 3) = rootOf chain3plus1 0) ∧
      (chain3plus1.rank (rootOf chain3plus1 0) = chain3plus1.rank (rootOf chain3plus1 3) →
        (nodeUnion chain3plus1 0 3).parent (rootOf chain3plus1 3) = rootOf chain3plus1 0 ∧
        (nodeUnion chain3plus1 0 3).rank (rootOf chain3plus1 0) =
          chain3plus1.rank (rootOf chain3plus1 0) + 1 ∧
        (∀ j, j ≠ rootOf chain3plus1 0 →
          (nodeUnion chain3plus1 0 3).rank j = chain3plus1.rank j)) ∧
      (chain3plus1.rank (rootOf chain3plus1 0) ≠ chain3plus1.rank (rootOf chain3plus1 3) →
        (nodeUnion chain3plus1 0 3).rank = chain3plus1.rank))) :=
  ⟨WF_of_WFb chain3plus1 (by decide), by decide, by decide,
   claim_C3_union_by_rank chain3plus1 (WF_of_WFb chain3plus1 (by decide)) 0 3
     (by decide) (by decide)⟩

/-- C4: any operation given an entity index outside `[0, n)` fails with
`IndexOutOfRange` and hands back the forest completely unmodified — all
indices are validated before any parent link is mutated (spec-modelled:
the bounds-checked surface is prescribed by the spec; the C++ test asset
indexes `nodes[a]` unchecked). -/
theorem claim_C4_index_out_of_range (f : Forest) (i a b : Nat)
    (hi : f.n ≤ i) (hab : f.n ≤ a ∨ f.n ≤ b) :
    findChecked f i = (f, Except.error DsError.IndexOutOfRange) ∧
    unionChecked f a b = (f, Except.error DsError.IndexOutOfRange) ∧
    sameGroupChecked f a b = (f, Except.error DsError.IndexOutOfRange) := by
  have hni : ¬ i < f.n := by omega
  have hnab : ¬ (a < f.n ∧ b < f.n) := by
    rintro ⟨h1, h2⟩
    rcases hab with h | h <;> omega
  refine ⟨?_, ?_, ?_⟩
  · unfold findChecked
    rw [if_neg hni]
  · unfold unionChecked
    rw [if_neg hnab]
  · unfold sameGroupChecked
    rw [if_neg hnab]

theorem claim_C4_witness :
    (make 2 (fun _ => 0)).n ≤ 7 ∧
    ((make 2 (fun _ => 0)).n ≤ 2 ∨ (make 2 (fun _ => 0)).n ≤ 0) ∧
    (findChecked (make 2 (fun _ => 0)) 7 =
       (make 2 (fun _ => 0), Except.error DsError.IndexOutOfRange) ∧
     unionChecked (make 2 (fun _ => 0)) 2 0 =
       (make 2 (fun _ => 0), Except.error DsError.IndexOutOfRange) ∧
     sameGroupChecked (make 2 (fun _ => 0)) 2 0 =
       (make 2 (fun _ => 0), Except.error DsError.IndexOutOfRange)) :=
  ⟨by decide, Or.inl (by decide),
   claim_C4_index_out_of_range (make 2 (fun _ => 0)) 7 2 0 (by decide)
     (Or.inl (by decide))⟩

/-- C5 fails on the code: the C++ hardcodes 32-bit `int` for `money` and
for the `unordered_map` totals (no documented width constant).  With
four entities of value 2^30 merged into one group, the program's
wrapping verdict `verify` answers `POSSIBLE` although the exact group
total is 2^32 ≠ 0 (the spec's exact-arithmetic verdict `verifyExact`
answers `IMPOSSIBLE`): a verdict produced by silently wrapped
arithmetic. -/
theorem claim_C5_int32_overflow :
    verify (applyUnions (make 4 (fun _ => 1073741824)) [(0,1),(1,2),(2,3)]) =
      Verdict.POSSIBLE ∧
    groupSum (applyUnions (make 4 (fun _ => 1073741824)) [(0,1),(1,2),(2,3)])
      (rootOf (applyUnions (make 4 (fun _ => 1073741824)) [(0,1),(1,2),(2,3)]) 0) =
      4294967296 ∧
    verifyExact (applyUnions (make 4 (fun _ => 1073741824)) [(0,1),(1,2),(2,3)]) =
      Verdict.IMPOSSIBLE := by
  refine ⟨by decide, by decide, by decide⟩

/-- C6: `nodeUnion` is idempotent on `find` answers: running
`nodeUnion f a b` twice leaves `find a` and `find b` with the same
representatives as running it once. -/
theorem claim_C6_union_idempotent (f : Forest) (hwf : WF f) (a b : Nat)
    (ha : a < f.n) (hb : b < f.n) :
    (find (nodeUnion (nodeUnion f a b) a b) a).2 = (find (nodeUnion f a b) a).2 ∧
    (find (nodeUnion (nodeUnion f a b) a b) b).2 = (find (nodeUnion f a b) b).2 := by
  obtain ⟨hwf1, hn1, _, _⟩ := applyOp_spec f hwf (Op.unionOp a b) ⟨ha, hb⟩
  have hwf1 : WF (nodeUnion f a b) := hwf1
  have hn1 : (nodeUnion f a b).n = f.n := hn1
  have ha1 : a < (nodeUnion f a b).n := by
    rw [hn1]
    exact ha
  have hb1 : b < (nodeUnion f a b).n := by
    rw [hn1]
    exact hb
  have hmerged : rootOf (nodeUnion f a b) a = rootOf (nodeUnion f a b) b :=
    nodeUnion_roots_merged f hwf ha hb
  obtain ⟨hwf2, hn2, _, _, hroots2, _⟩ :=
    nodeUnion_same (nodeUnion f a b) hwf1 ha1 hb1 hmerged
  have ha2 : a < (nodeUnion (nodeUnion f a b) a b).n := by
    rw [hn2]
    exact ha1
  have hb2 : b < (nodeUnion (nodeUnion f a b) a b).n := by
    rw [hn2]
    exact hb1
  obtain ⟨hfa2, _⟩ := find_spec (nodeUnion (nodeUnion f a b) a b) hwf2 ha2
  obtain ⟨hfb2, _⟩ := find_spec (nodeUnion (nodeUnion f a b) a b) hwf2 hb2
  obtain ⟨hfa1, _⟩ := find_spec (nodeUnion f a b) hwf1 ha1
  obtain ⟨hfb1, _⟩ := find_spec (nodeUnion f a b) hwf1 hb1
  constructor
  · rw [hfa2, hfa1]
    exact hroots2 a ha1
  · rw [hfb2, hfb1]
    exact hroots2 b hb1

theorem claim_C6_witness :
    WF chain3plus1 ∧ 0 < chain3plus1.n ∧ 3 < chain3plus1.n ∧
    ((find (nodeUnion (nodeUnion chain3plus1 0 3) 0 3) 0).2 =
       (find (nodeUnion chain3plus1 0 3) 0).2 ∧
     (find (nodeUnion (nodeUnion chain3plus1 0 3) 0 3) 3).2 =
       (find (nodeUnion chain3plus1 0 3) 3).2) :=
  ⟨WF_of_WFb chain3plus1 (by decide), by decide, by decide,
   claim_C6_union_idempotent chain3plus1 (WF_of_WFb chain3plus1 (by decide)) 0 3
     (by decide) (by decide)⟩

/-- C7: groups only coarsen: once `query` (the code's `same_group`)
answers true for `a` and `b`, it still answers true after any further
sequence of `find` and `nodeUnion` operations. -/
theorem claim_C7_monotonic_coarsening (f : Forest) (hwf : WF f) (a b : Nat)
    (ha : a < f.n) (hb : b < f.n) (ops : List Op) (hops : OpsValid f.n ops)
    (htrue : (query f a b).2 = true) :
    (query (applyOps f ops) a b).2 = true := by
  have hab : rootOf f a = rootOf f b := (query_true_iff f hwf ha hb).mp htrue
  obtain ⟨hwf2, hn2, _, hpres⟩ := applyOps_spec ops f hwf hops
  refine (query_true_iff (applyOps f ops) hwf2 ?_ ?_).mpr (hpres a b ha hb hab)
  · rw [hn2]
    exact ha
  · rw [hn2]
    exact hb

theorem claim_C7_witness :
    WF chain3 ∧ 0 < chain3.n ∧ 1 < chain3.n ∧
    OpsValid chain3.n [Op.unionOp 1 2, Op.findOp 0] ∧
    (query chain3 0 1).2 = true ∧
    (query (applyOps chain3 [Op.unionOp 1 2, Op.findOp 0]) 0 1).2 = true :=
  ⟨WF_of_WFb chain3 (by decide), by decide, by decide, by decide, by decide,
   claim_C7_monotonic_coarsening chain3 (WF_of_WFb chain3 (by decide)) 0 1
     (by decide) (by decide) [Op.unionOp 1 2, Op.findOp 0] (by decide) (by decide)⟩

/-- C8: the verdict is deterministic in the final partition and the
values: two union-request sequences producing the same final group
membership yield the same `verify` result, and scanning the entities in
any permutation of the index order yields the same result. -/
theorem claim_C8_verify_deterministic (n : Nat) (money : Nat → Int)
    (us1 us2 : List (Nat × Nat)) (order : List Nat)
    (h1 : UnionsValid n us1) (h2 : UnionsValid n us2)
    (hsame : ∀ x, x < n → ∀ y, y < n →
      (rootOf (applyUnions (make n money) us1) x =
         rootOf (applyUnions (make n money) us1) y ↔
       rootOf (applyUnions (make n money) us2) x =
         rootOf (applyUnions (make n money) us2) y))
    (hperm : order.Perm (List.range n)) :
    verify (applyUnions (make n money) us1) =
      verify (applyUnions (make n money) us2) ∧
    verifyScan (applyUnions (make n money) us1) order =
      verify (applyUnions (make n money) us1) := by
  obtain ⟨hwf1, hn1, hm1⟩ := applyUnions_spec (make n money) (make_WF n money) us1 h1
  obtain ⟨hwf2, hn2, hm2⟩ := applyUnions_spec (make n money) (make_WF n money) us2 h2
  constructor
  · apply verify_partition_det _ _ hwf1 hwf2
    · rw [hn1, hn2]
    · intro i _
      rw [hm1, hm2]
    · intro x y hx hy
      have hx2 : x < n := by
        rw [hn1] at hx
        exact hx
      have hy2 : y < n := by
        rw [hn1] at hy
        exact hy
      exact hsame x hx2 y hy2
  · apply verifyScan_perm _ hwf1
    rw [hn1]
    exact hperm

theorem claim_C8_witness :
    UnionsValid 2 [(0, 1)] ∧ UnionsValid 2 [(1, 0)] ∧
    (∀ x, x < 2 → ∀ y, y < 2 →
      (rootOf (applyUnions (make 2 (fun _ => 0)) [(0, 1)]) x =
         rootOf (applyUnions (make 2 (fun _ => 0)) [(0, 1)]) y ↔
       rootOf (applyUnions (make 2 (fun _ => 0)) [(1, 0)]) x =
         rootOf (applyUnions (make 2 (fun _ => 0)) [(1, 0)]) y)) ∧
    ([1, 0] : List Nat).Perm (List.range 2) ∧
    (verify (applyUnions (make 2 (fun _ => 0)) [(0, 1)]) =
       verify (applyUnions (make 2 (fun _ => 0)) [(1, 0)]) ∧
     verifyScan (applyUnions (make 2 (fun _ => 0)) [(0, 1)]) [1, 0] =
       verify (applyUnions (make 2 (fun _ => 0)) [(0, 1)])) :=
  ⟨by decide, by decide, by decide, by decide,
   claim_C8_verify_deterministic 2 (fun _ => 0) [(0, 1)] [(1, 0)] [1, 0]
     (by decide) (by decide) (by decide) (by decide)⟩

/-- C9: forest acyclicity is invariant: in every state reachable from
`make n` by a sequence of `find` and `nodeUnion` calls, parent links
stay in range and following them from any entity reaches, in finitely
many steps, an entity whose parent is itself. -/
theorem claim_C9_reachable_acyclic (n : Nat) (money : Nat → Int)
    (ops : List Op) (hops : OpsValid n ops) :
    WF (applyOps (make n money) ops) ∧
    (applyOps (make n money) ops).n = n ∧
    (∀ i, i < n → ∃ k,
      isRoot (applyOps (make n money) ops)
        (((applyOps (make n money) ops).parent)^[k] i)) := by
  obtain ⟨hwf2, hn2, _, _⟩ := applyOps_spec ops (make n money) (make_WF n money) hops
  refine ⟨hwf2, hn2, ?_⟩
  intro i hi
  refine hwf2.2 i ?_
  rw [hn2]
  exact hi

theorem claim_C9_witness :
    OpsValid 3 [Op.unionOp 0 1, Op.unionOp 1 2, Op.findOp 0] ∧
    (WF (applyOps (make 3 (fun _ => 0)) [Op.unionOp 0 1, Op.unionOp 1 2, Op.findOp 0]) ∧
     (applyOps (make 3 (fun _ => 0)) [Op.unionOp 0 1, Op.unionOp 1 2, Op.findOp 0]).n = 3 ∧
     (∀ i, i < 3 → ∃ k,
       isRoot (applyOps (make 3 (fun _ => 0)) [Op.unionOp 0 1, Op.unionOp 1 2, Op.findOp 0])
         (((applyOps (make 3 (fun _ => 0)) [Op.unionOp 0 1, Op.unionOp 1 2, Op.findOp 0]).parent)^[k] i))) :=
  ⟨by decide,
   claim_C9_reachable_acyclic 3 (fun _ => 0)
     [Op.unionOp 0 1, Op.unionOp 1 2, Op.findOp 0] (by decide)⟩

/-- C10 as stated fails on the code: in `chain3plus1` the union of 0
(root 2, rank 2) and 3 (root 3, rank 0) is a merging union whose losing
root is 3, yet it also rewrites the parent of entity 0 (the `find`
inside `nodeUnion` compresses 0's path), so a field of an entity other
than the losing root changes. -/
theorem claim_C10_counterexample :
    rootOf chain3plus1 0 ≠ rootOf chain3plus1 3 ∧
    chain3plus1.rank (rootOf chain3plus1 3) < chain3plus1.rank (rootOf chain3plus1 0) ∧
    (0 : Nat) ≠ rootOf chain3plus1 3 ∧
    (nodeUnion chain3plus1 0 3).parent 0 ≠ chain3plus1.parent 0 := by decide

/-- C10 (amended): neither `find` nor `nodeUnion` ever changes any
entity's `money`; `find` changes no rank and rewrites only the parents
of the visited path; a merging `nodeUnion` rewrites the losing root's
parent to the winning root and otherwise rewrites parents only of nodes
on its two embedded `find` paths — each such rewrite pointing the node
at its own existing representative (path compression), every other
entity's parent unchanged — and the only rank change is the winning
root's increment on a tie. -/
theorem claim_C10_frame (f : Forest) (hwf : WF f) (a b i : Nat)
    (ha : a < f.n) (hb : b < f.n) (hi : i < f.n) :
    (find f i).1.money = f.money ∧
    (find f i).1.rank = f.rank ∧
    (∀ j, j ∉ pathOf f i → (find f i).1.parent j = f.parent j) ∧
    (nodeUnion f a b).money = f.money ∧
    (rootOf f a ≠ rootOf f b →
      (nodeUnion f a b).parent (unionLoser f a b) = unionWinner f a b ∧
      (∀ j, j ≠ unionLoser f a b →
        (nodeUnion f a b).parent j = f.parent j ∨
        (j < f.n ∧ (nodeUnion f a b).parent j = rootOf f j)) ∧
      (∀ j, j ∉ pathOf f a → j ∉ pathOf (find f a).1 b →
        j ≠ unionLoser f a b → (nodeUnion f a b).parent j = f.parent j) ∧
      (f.rank (rootOf f a) = f.rank (rootOf f b) →
        ∀ j, (nodeUnion f a b).rank j =
          if j = rootOf f a then f.rank j + 1 else f.rank j) ∧
      (f.rank (rootOf f a) ≠ f.rank (rootOf f b) →
        (nodeUnion f a b).rank = f.rank)) := by
  obtain ⟨_, _, hfrank, hfmoney, hfpar, _, _⟩ := find_spec f hwf hi
  have hupar : ∀ j, j ∉ pathOf f i → (find f i).1.parent j = f.parent j := by
    intro j hj
    rw [hfpar j, if_neg hj]
  have humoney : (nodeUnion f a b).money = f.money := by
    by_cases hab : rootOf f a = rootOf f b
    · exact (nodeUnion_same f hwf ha hb hab).2.2.2.1
    · exact (nodeUnion_merge f hwf ha hb hab).2.2.1
  refine ⟨hfmoney, hfrank, hupar, humoney, ?_⟩
  intro hab
  obtain ⟨_, _, _, _, hparl, hpar, htie, hnotie⟩ := nodeUnion_merge f hwf ha hb hab
  exact ⟨hparl, hpar, nodeUnion_untouched f hwf ha hb, htie, hnotie⟩

theorem claim_C10_witness :
    WF chain3plus1 ∧ 0 < chain3plus1.n ∧ 3 < chain3plus1.n ∧ 1 < chain3plus1.n ∧
    ((find chain3plus1 1).1.money = chain3plus1.money ∧
     (find chain3plus1 1).1.rank = chain3plus1.rank ∧
     (∀ j, j ∉ pathOf chain3plus1 1 →
       (find chain3plus1 1).1.parent j = chain3plus1.parent j) ∧
     (nodeUnion chain3plus1 0 3).money = chain3plus1.money ∧
     (rootOf chain3plus1 0 ≠ rootOf chain3plus1 3 →
       (nodeUnion chain3plus1 0 3).parent (unionLoser chain3plus1 0 3) =
         unionWinner chain3plus1 0 3 ∧
       (∀ j, j ≠ unionLoser chain3plus1 0 3 →
         (nodeUnion chain3plus1 0 3).parent j = chain3plus1.parent j ∨
         (j < chain3plus1.n ∧
           (nodeUnion chain3plus1 0 3).parent j = rootOf chain3plus1 j)) ∧
       (∀ j, j ∉ pathOf chain3plus1 0 → j ∉ pathOf (find chain3plus1 0).1 3 →
         j ≠ unionLoser chain3plus1 0 3 →
         (nodeUnion chain3plus1 0 3).parent j = chain3plus1.parent j) ∧
       (chain3plus1.rank (rootOf chain3plus1 0) = chain3plus1.rank (rootOf chain3plus1 3) →
         ∀ j, (nodeUnion chain3plus1 0 3).rank j =
           if j = rootOf chain3plus1 0 then chain3plus1.rank j + 1
           else chain3plus1.rank j) ∧
       (chain3plus1.rank (rootOf chain3plus1 0) ≠ chain3plus1.rank (rootOf chain3plus1 3) →
         (nodeUnion chain3plus1 0 3).rank = chain3plus1.rank))) :=
  ⟨WF_of_WFb chain3plus1 (by decide), by decide, by decide, by decide,
   claim_C10_frame chain3plus1 (WF_of_WFb chain3plus1 (by decide)) 0 3 1
     (by decide) (by decide) (by decide)⟩
